import Mathlib

/-!
Verification of the weather-data cleaner (`weather_cleaner.cpp`).

The development shallowly embeds the cleaning core of the repository:

* `trim`        — `WeatherDataCleaner::trim` (lines 29-34)
* `cleanField`  — `WeatherDataCleaner::cleanField` (lines 37-52)
* `chunksBy`    — the `std::getline(stream, s, delim)` read loop used both by
                  `parseCSVLine` (delimiter `','`, lines 55-68) and by
                  `processFile`'s line loop (delimiter `'\n'`, line 112)
* `parseCSVLine` — `WeatherDataCleaner::parseCSVLine` (lines 55-68)
* `writeCSVLine` — `WeatherDataCleaner::writeCSVLine` (lines 71-83)
* `streamProcess` — the content transformation performed by
                  `WeatherDataCleaner::processFile` (lines 86-140)
* `mappedProcess` — the content transformation performed by
                  `WeatherDataCleaner::processFileMemoryMapped` (lines 143-278)

File contents are modelled as `List Char`; each `Char` stands for one byte of
the file.  All definitions are executable, so concrete runs are settled by
`decide`.
-/

namespace Weather

/-- The trim character set of `find_first_not_of(" \t\r\n")` /
`find_last_not_of(" \t\r\n")` in `WeatherDataCleaner::trim`. -/
def isTrimChar (c : Char) : Bool :=
  c = ' ' || c = '\t' || c = '\r' || c = '\n'

/-- `WeatherDataCleaner::trim`: drop the longest prefix and the longest suffix
of characters from `" \t\r\n"`; if every character is such, the result is
empty (the `npos` branch). -/
def trim (s : List Char) : List Char :=
  ((s.dropWhile isTrimChar).reverse.dropWhile isTrimChar).reverse

/-- `std::isspace` in the default C locale, as used in the `all_of` test of
`cleanField`: space, tab, newline, vertical tab, form feed, carriage return. -/
def isspace (c : Char) : Bool :=
  c = ' ' || c = '\t' || c = '\n' || c = '\x0B' || c = '\x0C' || c = '\r'

/-- `WeatherDataCleaner::cleanField`: trim; strip one enclosing pair of double
quotes when the trimmed value has length ≥ 2 and both ends are `"`
(`substr(1, length-2)`); return the sentinel `"0"` when the result is `-`,
`--`, empty, or all `isspace` characters. -/
def cleanField (field : List Char) : List Char :=
  let trimmed := trim field
  let unquoted :=
    if 2 ≤ trimmed.length ∧ trimmed.head? = some '"' ∧ trimmed.getLast? = some '"' then
      (trimmed.drop 1).dropLast
    else trimmed
  if unquoted = ['-'] ∨ unquoted = ['-', '-'] ∨ unquoted = [] ∨ unquoted.all isspace = true then
    ['0']
  else unquoted

/-- One `std::getline(stream, s, d)` call on a nonempty stream: the characters
before the first `d` (the delimiter is consumed and discarded), paired with
the rest of the stream. -/
def readDelim (d : Char) : List Char → List Char × List Char
  | [] => ([], [])
  | c :: rest =>
    if c = d then ([], rest)
    else
      let p := readDelim d rest
      (c :: p.1, p.2)

/-- The chunks produced by the loop `while (std::getline(stream, s, d))`:
on an exhausted stream `getline` extracts nothing and fails, so an empty
stream yields no chunk — in particular a final empty segment after a trailing
delimiter is never produced. -/
def chunksBy (d : Char) : List Char → List (List Char)
  | [] => []
  | c :: rest =>
    if c = d then [] :: chunksBy d rest
    else
      match chunksBy d rest with
      | [] => [[c]]
      | f :: fs => (c :: f) :: fs

/-- `WeatherDataCleaner::parseCSVLine`: split the line with
`std::getline(ss, field, ',')` and clean each extracted field. -/
def parseCSVLine (line : List Char) : List (List Char) :=
  (chunksBy ',' line).map cleanField

/-- `WeatherDataCleaner::writeCSVLine`: emit nothing for an empty field
vector; otherwise emit the first field, then `',' + field` for each further
field, then `'\n'`. -/
def writeCSVLine (fields : List (List Char)) : List Char :=
  match fields with
  | [] => []
  | f0 :: rest => (rest.foldl (fun acc fi => acc ++ ',' :: fi) f0) ++ ['\n']

/-- Parse-then-write for one line, as done by both engines
(lines 121-124 and 243-244). -/
def lineOut (line : List Char) : List Char :=
  writeCSVLine (parseCSVLine line)

/-- The content transformation of `WeatherDataCleaner::processFile`: read
lines with `std::getline(input, line)` (delimiter `'\n'`) and write each
line's cleaned output in order. -/
def streamProcess (contents : List Char) : List Char :=
  ((chunksBy '\n' contents).map lineOut).flatten

/-- The one-`\r`-strip applied to a scanned line by
`processFileMemoryMapped` (`actualLineEnd--` when the byte before the found
`'\n'` is `'\r'`). -/
def stripCR (l : List Char) : List Char :=
  if l.getLast? = some '\r' then l.dropLast else l

/-- The scan loop of `WeatherDataCleaner::processFileMemoryMapped`, with the
current line accumulated in reverse in `acc`: at a `'\n'` (or at the end of
the buffer) the candidate line is emitted unless it is empty
(`lineEnd > lineStart`), after stripping one trailing `'\r'`. -/
def mappedGo (acc : List Char) : List Char → List Char
  | [] => if acc = [] then [] else lineOut (stripCR acc.reverse)
  | c :: rest =>
    if c = '\n' then
      (if acc = [] then [] else lineOut (stripCR acc.reverse)) ++ mappedGo [] rest
    else mappedGo (c :: acc) rest

/-- The content transformation of `WeatherDataCleaner::processFileMemoryMapped`
(the scan starts at the beginning of the mapped buffer). -/
def mappedProcess (buf : List Char) : List Char :=
  mappedGo [] buf

/-- Decidable rendering of the hypothesis of the engine-equivalence claim:
every raw `'\r'` byte of the file is immediately followed by `'\n'`, i.e.
carriage returns occur only as part of a CRLF line terminator and hence never
inside a field's interior. -/
def crOnlyAtLineEnd : List Char → Bool
  | [] => true
  | c :: rest =>
    if c = '\r' then
      match rest with
      | '\n' :: _ => crOnlyAtLineEnd rest
      | _ => false
    else crOnlyAtLineEnd rest

/-- Step 1 of the spec's field-cleaning algorithm, in the spec's words: trim
leading/trailing characters in the set \x7bspace, tab, carriage-return,
newline\x7d. -/
def specTrim (s : List Char) : List Char :=
  ((s.dropWhile isTrimChar).reverse.dropWhile isTrimChar).reverse

/-- The four-step field-cleaning algorithm exactly as the spec states it
(§4.1): trim; strip exactly one enclosing quote pair when length ≥ 2 and both
ends are `"`; return the sentinel `"0"` when the result is empty, entirely
whitespace, or exactly `-` or `--`; otherwise return it unchanged.
"Whitespace" in step 3 is read as the C `isspace` class. -/
def specClean (f : List Char) : List Char :=
  let t := specTrim f
  let u :=
    if 2 ≤ t.length ∧ t.head? = some '"' ∧ t.getLast? = some '"' then
      (t.drop 1).dropLast
    else t
  if u = [] ∨ u.all isspace = true ∨ u = ['-'] ∨ u = ['-', '-'] then ['0'] else u

/-- Outcome of one `processFile` run: whether it returned `true`, whether it
ever attempted to create the output file, and the bytes written to it. -/
structure StreamRunResult where
  success : Bool
  outputAttempted : Bool
  written : Option (List Char)

/-- The control flow of `WeatherDataCleaner::processFile` (lines 86-140) over
an abstract filesystem: the input stream is opened first and failure returns
`false` before the output stream is ever constructed; then the output stream
is constructed and failure returns `false`; once both are open the read loop
runs to completion and the function returns `true`. -/
def processFile (inputOpens outputCreates : Bool) (contents : List Char) :
    StreamRunResult :=
  if inputOpens = false then ⟨false, false, none⟩
  else if outputCreates = false then ⟨false, true, none⟩
  else ⟨true, true, some (streamProcess contents)⟩

/-- `chunksBy` performs exactly the `getline` read step modelled by
`readDelim`: on a nonempty stream it reads one chunk up to the first
delimiter and continues on the remainder. -/
theorem chunksBy_cons_eq (d : Char) (l : List Char) (h : l ≠ []) :
    chunksBy d l = (readDelim d l).1 :: chunksBy d (readDelim d l).2 := by
  induction l with
  | nil => exact absurd rfl h
  | cons c rest ih =>
    by_cases hc : c = d
    · simp [chunksBy, readDelim, hc]
    · by_cases hr : rest = []
      · subst hr
        simp [chunksBy, readDelim, hc]
      · simp only [chunksBy, readDelim, if_neg hc]
        rw [ih hr]

-- Sanity checks against hand-traces of the C++.
example : cleanField ['-'] = ['0'] := by decide
example : cleanField ['"', 'a', 'b', 'c', '"'] = ['a', 'b', 'c'] := by decide
example : parseCSVLine [','] = [['0']] := by decide
example : parseCSVLine [',', ','] = [['0'], ['0']] := by decide
example : parseCSVLine [] = [] := by decide
example : writeCSVLine (parseCSVLine [',', ',']) = ['0', ',', '0', '\n'] := by decide
example : streamProcess ['a', '\n', '\n', 'b', '\n'] = ['a', '\n', 'b', '\n'] := by decide
example : mappedProcess ['a', '\n', '\n', 'b', '\n'] = ['a', '\n', 'b', '\n'] := by decide
example : streamProcess ['a', ',', '\r', '\n'] = ['a', ',', '0', '\n'] := by decide
example : mappedProcess ['a', ',', '\r', '\n'] = ['a', '\n'] := by decide

/-- A delimiter-free nonempty stream is read by the `getline` loop as one
single chunk. -/
theorem chunksBy_of_not_mem (d : Char) :
    ∀ w : List Char, w ≠ [] → d ∉ w → chunksBy d w = [w] := by
  intro w
  induction w with
  | nil => intro hw _; exact absurd rfl hw
  | cons c rest ih =>
    intro _ h
    have hc : ¬ c = d := by
      intro e; exact h (by simp [e])
    by_cases hr : rest = []
    · subst hr; simp [chunksBy, hc]
    · have hrest : d ∉ rest := fun m => h (List.mem_cons_of_mem _ m)
      simp only [chunksBy, if_neg hc]
      rw [ih hr hrest]

/-- The `getline` loop consumes the stream up to the first delimiter as its
first chunk and continues after it. -/
theorem chunksBy_append (d : Char) :
    ∀ a r : List Char, d ∉ a → chunksBy d (a ++ d :: r) = a :: chunksBy d r := by
  intro a
  induction a with
  | nil => intro r _; simp [chunksBy]
  | cons c a2 ih =>
    intro r h
    have hc : ¬ c = d := by
      intro e; exact h (by simp [e])
    have ha2 : d ∉ a2 := fun m => h (List.mem_cons_of_mem _ m)
    by_cases hr2 : a2 ++ d :: r = []
    · simp at hr2
    · simp only [List.cons_append, chunksBy, if_neg hc, List.append_eq]
      rw [ih r ha2]

/-- The empty line cleans to the empty output: `getline` on an exhausted
stringstream fails at once, so the parser returns zero fields and the writer
emits nothing. -/
theorem lineOut_nil : lineOut [] = [] := rfl

theorem streamProcess_nil : streamProcess [] = [] := rfl

/-- On newline-free nonempty contents the streaming engine processes a single
line. -/
theorem streamProcess_of_not_mem (w : List Char) (hw : w ≠ []) (h : '\n' ∉ w) :
    streamProcess w = lineOut w := by
  unfold streamProcess
  rw [chunksBy_of_not_mem '\n' w hw h]
  simp

/-- The streaming engine processes the first line and continues after its
terminator. -/
theorem streamProcess_append (a r : List Char) (h : '\n' ∉ a) :
    streamProcess (a ++ '\n' :: r) = lineOut a ++ streamProcess r := by
  unfold streamProcess
  rw [chunksBy_append '\n' a r h]
  simp

/-- Generalised scan-step lemma: on a newline-free tail the mapped scan emits
the pending line (accumulator plus tail) unless it is empty. -/
theorem mappedGo_of_not_mem :
    ∀ a acc : List Char, '\n' ∉ a →
      mappedGo acc a =
        if acc.reverse ++ a = [] then [] else lineOut (stripCR (acc.reverse ++ a)) := by
  intro a
  induction a with
  | nil =>
    intro acc _
    simp [mappedGo]
  | cons c a2 ih =>
    intro acc h
    have hc : ¬ c = '\n' := by
      intro e; exact h (by simp [e])
    have ha2 : '\n' ∉ a2 := fun m => h (List.mem_cons_of_mem _ m)
    simp only [mappedGo, if_neg hc]
    rw [ih (c :: acc) ha2]
    simp [List.append_assoc]

/-- Generalised scan-step lemma: at the first `'\n'` the mapped scan emits the
pending line (accumulator plus prefix) unless it is empty, then restarts after
the terminator. -/
theorem mappedGo_append :
    ∀ a acc r : List Char, '\n' ∉ a →
      mappedGo acc (a ++ '\n' :: r) =
        (if acc.reverse ++ a = [] then [] else lineOut (stripCR (acc.reverse ++ a)))
          ++ mappedGo [] r := by
  intro a
  induction a with
  | nil =>
    intro acc r _
    simp [mappedGo]
  | cons c a2 ih =>
    intro acc r h
    have hc : ¬ c = '\n' := by
      intro e; exact h (by simp [e])
    have ha2 : '\n' ∉ a2 := fun m => h (List.mem_cons_of_mem _ m)
    simp only [List.cons_append, mappedGo, if_neg hc, List.append_eq]
    rw [ih (c :: acc) r ha2]
    simp [List.append_assoc]

theorem mappedProcess_nil : mappedProcess [] = [] := rfl

/-- On newline-free contents the mapped engine processes a single line
(after stripping one trailing `'\r'`), skipping it when empty. -/
theorem mappedProcess_of_not_mem (w : List Char) (h : '\n' ∉ w) :
    mappedProcess w = if w = [] then [] else lineOut (stripCR w) := by
  unfold mappedProcess
  rw [mappedGo_of_not_mem w [] h]
  simp

/-- The mapped engine processes the first line and continues after its
terminator, skipping the line when it is empty. -/
theorem mappedProcess_append (a r : List Char) (h : '\n' ∉ a) :
    mappedProcess (a ++ '\n' :: r) =
      (if a = [] then [] else lineOut (stripCR a)) ++ mappedProcess r := by
  unfold mappedProcess
  rw [mappedGo_append a [] r h]
  simp

/-- Any list with a distinguished member splits at its first occurrence. -/
theorem exists_split_first (d : Char) :
    ∀ l : List Char, d ∈ l → ∃ a r, l = a ++ d :: r ∧ d ∉ a := by
  intro l
  induction l with
  | nil => intro h; simp at h
  | cons c rest ih =>
    intro h
    by_cases hc : c = d
    · exact ⟨[], rest, by simp [hc], by simp⟩
    · have hm : d ∈ rest := by
        rcases List.mem_cons.mp h with h1 | h1
        · exact absurd h1.symm hc
        · exact h1
      rcases ih hm with ⟨a, r, heq, hna⟩
      refine ⟨c :: a, r, by simp [heq], ?_⟩
      intro hm2
      rcases List.mem_cons.mp hm2 with h2 | h2
      · exact hc h2.symm
      · exact hna h2

/-- A list without `'\r'` is unchanged by the mapped engine's one-`'\r'`
strip. -/
theorem stripCR_of_not_mem (l : List Char) (h : '\r' ∉ l) : stripCR l = l := by
  unfold stripCR
  cases hl : l.getLast? with
  | none => simp
  | some c =>
    by_cases hc : c = '\r'
    · exfalso
      subst hc
      rcases List.mem_getLast?_eq_getLast (show '\r' ∈ l.getLast? from hl) with ⟨hne, heq⟩
      exact h (by rw [heq]; exact List.getLast_mem hne)
    · simp [Ne.symm hc, hc]

/-- Length-bounded induction core of the engine-equivalence theorem: on
carriage-return-free contents the two engines agree line by line. -/
theorem stream_eq_mapped_bounded :
    ∀ n : Nat, ∀ c : List Char, c.length ≤ n → '\r' ∉ c →
      streamProcess c = mappedProcess c := by
  intro n
  induction n with
  | zero =>
    intro c hl _
    have hc : c = [] := List.length_eq_zero.mp (Nat.le_zero.mp hl)
    subst hc; rfl
  | succ n ih =>
    intro c hl hr
    by_cases hnl : '\n' ∈ c
    · rcases exists_split_first '\n' c hnl with ⟨a, r, heq, hna⟩
      subst heq
      have hra : '\r' ∉ a := fun m => hr (by simp [m])
      have hrr : '\r' ∉ r := fun m => hr (by simp [m])
      have hlen : r.length ≤ n := by
        simp only [List.length_append, List.length_cons] at hl
        omega
      rw [streamProcess_append a r hna, mappedProcess_append a r hna, ih r hlen hrr]
      congr 1
      by_cases ha : a = []
      · subst ha; decide
      · rw [if_neg ha, stripCR_of_not_mem a hra]
    · by_cases hc : c = []
      · subst hc; rfl
      · rw [streamProcess_of_not_mem c hc hnl, mappedProcess_of_not_mem c hnl, if_neg hc,
          stripCR_of_not_mem c hr]

/-- Length-bounded induction core: a trailing `'\n'` added after the last
line never changes the streaming engine's output. -/
theorem streamProcess_append_nl_bounded :
    ∀ n : Nat, ∀ w : List Char, w.length ≤ n →
      streamProcess (w ++ ['\n']) = streamProcess w := by
  intro n
  induction n with
  | zero =>
    intro w hl
    have hw : w = [] := List.length_eq_zero.mp (Nat.le_zero.mp hl)
    subst hw; decide
  | succ n ih =>
    intro w hl
    by_cases hnl : '\n' ∈ w
    · rcases exists_split_first '\n' w hnl with ⟨a, r, heq, hna⟩
      subst heq
      have hlen : r.length ≤ n := by
        simp only [List.length_append, List.length_cons] at hl
        omega
      rw [List.append_assoc, List.cons_append, streamProcess_append a (r ++ ['\n']) hna,
        ih r hlen, ← streamProcess_append a r hna]
    · rw [show w ++ ['\n'] = w ++ '\n' :: [] from rfl, streamProcess_append w [] hnl,
        streamProcess_nil, List.append_nil]
      by_cases hw : w = []
      · subst hw; decide
      · rw [streamProcess_of_not_mem w hw hnl]

/-- Length-bounded induction core: a trailing `'\n'` added after the last
line never changes the mapped engine's output. -/
theorem mappedProcess_append_nl_bounded :
    ∀ n : Nat, ∀ w : List Char, w.length ≤ n →
      mappedProcess (w ++ ['\n']) = mappedProcess w := by
  intro n
  induction n with
  | zero =>
    intro w hl
    have hw : w = [] := List.length_eq_zero.mp (Nat.le_zero.mp hl)
    subst hw; decide
  | succ n ih =>
    intro w hl
    by_cases hnl : '\n' ∈ w
    · rcases exists_split_first '\n' w hnl with ⟨a, r, heq, hna⟩
      subst heq
      have hlen : r.length ≤ n := by
        simp only [List.length_append, List.length_cons] at hl
        omega
      rw [List.append_assoc, List.cons_append, mappedProcess_append a (r ++ ['\n']) hna,
        ih r hlen, ← mappedProcess_append a r hna]
    · rw [show w ++ ['\n'] = w ++ '\n' :: [] from rfl, mappedProcess_append w [] hnl,
        mappedProcess_nil, List.append_nil, mappedProcess_of_not_mem w hnl]

/-- The head of a `dropWhile` result fails the predicate. -/
theorem dropWhile_head_false (p : Char → Bool) :
    ∀ (l : List Char) (c : Char) (r : List Char), l.dropWhile p = c :: r → p c = false := by
  intro l
  induction l with
  | nil => intro c r h; simp [List.dropWhile] at h
  | cons a t ih =>
    intro c r h
    by_cases hp : p a = true
    · rw [List.dropWhile_cons, if_pos hp] at h
      exact ih c r h
    · rw [List.dropWhile_cons, if_neg hp] at h
      cases h
      simpa using hp

/-- A nonempty `dropWhile` result keeps the last element of the list. -/
theorem getLast?_dropWhile (p : Char → Bool) :
    ∀ l : List Char, l.dropWhile p ≠ [] → (l.dropWhile p).getLast? = l.getLast? := by
  intro l
  induction l with
  | nil => intro h; simp at h
  | cons a t ih =>
    intro h
    by_cases hp : p a = true
    · rw [List.dropWhile_cons, if_pos hp] at h ⊢
      rw [ih h]
      rcases t with _ | ⟨b, t2⟩
      · simp at h
      · rw [List.getLast?_cons_cons]
    · rw [List.dropWhile_cons, if_neg hp]

/-- Membership survives `dropWhile`. -/
theorem mem_of_mem_dropWhile (p : Char → Bool) :
    ∀ (l : List Char) (x : Char), x ∈ l.dropWhile p → x ∈ l := by
  intro l
  induction l with
  | nil => intro x h; simp at h
  | cons a t ih =>
    intro x h
    by_cases hp : p a = true
    · rw [List.dropWhile_cons, if_pos hp] at h
      exact List.mem_cons_of_mem _ (ih x h)
    · rw [List.dropWhile_cons, if_neg hp] at h
      exact h

/-- Every character of the trimmed field occurs in the original field. -/
theorem mem_trim {c : Char} {s : List Char} (h : c ∈ trim s) : c ∈ s := by
  unfold trim at h
  rw [List.mem_reverse] at h
  have h1 := mem_of_mem_dropWhile isTrimChar _ c h
  rw [List.mem_reverse] at h1
  exact mem_of_mem_dropWhile isTrimChar _ c h1

theorem mem_of_head? {c : Char} : ∀ {l : List Char}, l.head? = some c → c ∈ l := by
  intro l
  cases l with
  | nil => intro h; simp at h
  | cons a t =>
    intro h
    simp only [List.head?_cons, Option.some.injEq] at h
    simp [h]

/-- The last character of a trimmed field is not a trim character. -/
theorem trim_getLast?_false (s : List Char) (c : Char)
    (h : (trim s).getLast? = some c) : isTrimChar c = false := by
  unfold trim at h
  rw [List.getLast?_reverse] at h
  cases hd : (s.dropWhile isTrimChar).reverse.dropWhile isTrimChar with
  | nil => rw [hd] at h; simp at h
  | cons x r =>
    rw [hd] at h
    simp only [List.head?_cons, Option.some.injEq] at h
    subst h
    exact dropWhile_head_false isTrimChar _ x r hd

/-- The first character of a trimmed field is not a trim character. -/
theorem trim_head?_false (s : List Char) (c : Char)
    (h : (trim s).head? = some c) : isTrimChar c = false := by
  unfold trim at h
  rw [List.head?_reverse] at h
  have hne : (s.dropWhile isTrimChar).reverse.dropWhile isTrimChar ≠ [] := by
    intro he
    rw [he] at h
    simp at h
  rw [getLast?_dropWhile isTrimChar _ hne, List.getLast?_reverse] at h
  cases hd : s.dropWhile isTrimChar with
  | nil => rw [hd] at h; simp at h
  | cons x r =>
    rw [hd] at h
    simp only [List.head?_cons, Option.some.injEq] at h
    subst h
    exact dropWhile_head_false isTrimChar _ x r hd

/-- A string whose first and last characters are not trim characters is left
unchanged by `trim`. -/
theorem trim_eq_self (s : List Char)
    (h1 : ∀ c, s.head? = some c → isTrimChar c = false)
    (h2 : ∀ c, s.getLast? = some c → isTrimChar c = false) :
    trim s = s := by
  rcases s with _ | ⟨a, t⟩
  · rfl
  · unfold trim
    have ha : isTrimChar a = false := h1 a rfl
    rw [List.dropWhile_cons, if_neg (by simp [ha])]
    cases hr : (a :: t).reverse with
    | nil => simp at hr
    | cons b u =>
      have hb : (a :: t).getLast? = some b := by
        rw [← List.head?_reverse, hr]
        rfl
      have hbf : isTrimChar b = false := h2 b hb
      rw [List.dropWhile_cons, if_neg (by simp [hbf]), ← hr, List.reverse_reverse]

/-- `trim` is idempotent. -/
theorem trim_trim (s : List Char) : trim (trim s) = trim s :=
  trim_eq_self (trim s) (fun c h => trim_head?_false s c h)
    (fun c h => trim_getLast?_false s c h)

/-- On a field with no double-quote character the quote-stripping branch of
`cleanField` is never taken. -/
theorem cleanField_of_no_quote (f : List Char) (h : '"' ∉ f) :
    cleanField f =
      if trim f = ['-'] ∨ trim f = ['-', '-'] ∨ trim f = [] ∨ (trim f).all isspace = true
      then ['0'] else trim f := by
  have hq : ¬ (2 ≤ (trim f).length ∧ (trim f).head? = some '"' ∧
      (trim f).getLast? = some '"') := by
    rintro ⟨-, hh, -⟩
    exact h (mem_trim (mem_of_head? hh))
  simp only [cleanField]
  rw [if_neg hq]

/-- Helper for the idempotence claim: `cleanField` is idempotent on
quote-free fields. -/
theorem cleanField_idem_of_no_quote (f : List Char) (h : '"' ∉ f) :
    cleanField (cleanField f) = cleanField f := by
  rw [cleanField_of_no_quote f h]
  by_cases hs : trim f = ['-'] ∨ trim f = ['-', '-'] ∨ trim f = [] ∨
      (trim f).all isspace = true
  · rw [if_pos hs]
    decide
  · rw [if_neg hs]
    have h2 : '"' ∉ trim f := fun m => h (mem_trim m)
    rw [cleanField_of_no_quote (trim f) h2, trim_trim, if_neg hs]

/-- The code's cleaning function agrees everywhere with the spec's four-step
algorithm. -/
theorem cleanField_eq_specClean (f : List Char) : cleanField f = specClean f := by
  simp only [cleanField, specClean, specTrim, trim]
  split_ifs <;> first | rfl | tauto

/-- The body of `writeCSVLine`'s output loop, expressed as a join with
separators. -/
theorem foldl_comma (rest : List (List Char)) :
    ∀ f0 : List Char,
      rest.foldl (fun acc fi => acc ++ ',' :: fi) f0 =
        f0 ++ (rest.map (fun fi => ',' :: fi)).flatten := by
  induction rest with
  | nil => intro f0; simp
  | cons g gs ih =>
    intro f0
    rw [List.foldl_cons, ih (f0 ++ ',' :: g)]
    simp

/-- `List.intercalate` with a one-character separator, in join form. -/
theorem intercalate_comma :
    ∀ (rest : List (List Char)) (f0 : List Char),
      List.intercalate [','] (f0 :: rest) =
        f0 ++ (rest.map (fun fi => ',' :: fi)).flatten := by
  intro rest
  induction rest with
  | nil => intro f0; simp [List.intercalate]
  | cons g gs ih =>
    intro f0
    rw [List.intercalate, List.intersperse_cons_cons]
    simp only [List.flatten_cons]
    rw [show (List.intersperse [','] (g :: gs)).flatten = List.intercalate [','] (g :: gs)
      from rfl, ih g]
    simp

/-- C1 (amended): for every input file containing no raw carriage-return
byte, the streaming engine and the mapped-scan engine produce byte-identical
output. The claim's weaker hypothesis, which also admits CRLF line
terminators, is refuted by `engines_differ_despite_cr_only_at_line_end`. -/
theorem engines_agree_of_no_cr (c : List Char) (h : '\r' ∉ c) :
    streamProcess c = mappedProcess c :=
  stream_eq_mapped_bounded c.length c le_rfl h

/-- C1 counterexample: in the file `"a,\r\n"` the only carriage return is
part of a CRLF line terminator, so no `'\r'` lies in any field's interior;
yet the streaming engine emits `"a,0\n"` (the `'\r'` becomes a lone trailing
field that cleans to the sentinel) while the mapped engine emits `"a\n"`
(the `'\r'` is stripped and the field after the trailing `','` is dropped). -/
theorem engines_differ_despite_cr_only_at_line_end :
    crOnlyAtLineEnd ['a', ',', '\r', '\n'] = true ∧
      streamProcess ['a', ',', '\r', '\n'] ≠ mappedProcess ['a', ',', '\r', '\n'] := by
  decide

/-- Witness for `engines_agree_of_no_cr` at a concrete input. -/
theorem engines_agree_of_no_cr_check :
    '\r' ∉ (['a', ',', 'b', '\n', ',', 'c'] : List Char) ∧
      streamProcess ['a', ',', 'b', '\n', ',', 'c'] =
        mappedProcess ['a', ',', 'b', '\n', ',', 'c'] :=
  ⟨by decide, engines_agree_of_no_cr ['a', ',', 'b', '\n', ',', 'c'] (by decide)⟩

/-- C2 (code bug at the failing input `","`): `std::getline(ss, field, ',')`
fails once the stream is exhausted, so the empty field after a trailing
delimiter is silently dropped and the one-delimiter line `","` parses to one
field instead of the claimed two (= k+1).  The program's own summary output
("Replaced empty/whitespace cells with '0'", "Preserved original CSV
structure and headers") promises the claimed behaviour. -/
theorem parse_drops_field_after_trailing_delimiter :
    (parseCSVLine [',']).length = 1 ∧ ([','] : List Char).count ',' + 1 = 2 := by
  decide

/-- C3 (code bug at the failing input `",,"`): the parser yields only the
two empty fields before the delimiters — `getline` drops the field after the
trailing delimiter — so the emitted line is `"0,0\n"`, not the claimed
`"0,0,0\n"`. -/
theorem double_delimiter_line_output :
    writeCSVLine (parseCSVLine [',', ',']) = ['0', ',', '0', '\n'] ∧
      writeCSVLine (parseCSVLine [',', ',']) ≠ ['0', ',', '0', ',', '0', '\n'] := by
  decide

/-- C4 counterexample: on the input `"a\n\nb\n"` — a blank line between two
data lines — the streaming engine does NOT emit a `"0"` line: `getline` on
the empty stringstream fails immediately, the parser returns zero fields and
the writer emits nothing, so both engines produce exactly `"a\nb\n"` and do
not diverge. -/
theorem blank_line_both_engines_concrete :
    streamProcess ['a', '\n', '\n', 'b', '\n'] = ['a', '\n', 'b', '\n'] ∧
      mappedProcess ['a', '\n', '\n', 'b', '\n'] = ['a', '\n', 'b', '\n'] := by
  decide

/-- C4 (amended): both engines emit no output line for an entirely blank
line, and hence agree on it: the streaming parser maps the empty line to zero
fields and `writeCSVLine` emits nothing for an empty record, while the mapped
scan skips the empty range before parsing, so inserting a blank line after
any data line leaves either engine's output unchanged. -/
theorem blank_line_no_output_both_engines :
    parseCSVLine [] = [] ∧ writeCSVLine [] = [] ∧
      ∀ a q : List Char, '\n' ∉ a →
        streamProcess (a ++ '\n' :: '\n' :: q) = streamProcess (a ++ '\n' :: q) ∧
          mappedProcess (a ++ '\n' :: '\n' :: q) = mappedProcess (a ++ '\n' :: q) := by
  refine ⟨rfl, rfl, ?_⟩
  intro a q h
  have h0 : '\n' ∉ ([] : List Char) := by simp
  constructor
  · rw [streamProcess_append a ('\n' :: q) h, streamProcess_append a q h]
    have hq : streamProcess ('\n' :: q) = streamProcess q := by
      have hstep := streamProcess_append [] q h0
      simpa [lineOut_nil] using hstep
    rw [hq]
  · rw [mappedProcess_append a ('\n' :: q) h, mappedProcess_append a q h]
    have hq : mappedProcess ('\n' :: q) = mappedProcess q := by
      have hstep := mappedProcess_append [] q h0
      simpa using hstep
    rw [hq]

/-- Witness for `blank_line_no_output_both_engines` at a concrete input. -/
theorem blank_line_no_output_both_engines_check :
    '\n' ∉ (['a'] : List Char) ∧
      streamProcess (['a'] ++ '\n' :: '\n' :: ['b', '\n']) =
        streamProcess (['a'] ++ '\n' :: ['b', '\n']) :=
  ⟨by decide, (blank_line_no_output_both_engines.2.2 ['a'] ['b', '\n'] (by decide)).1⟩

/-- C5 counterexample: on the field consisting of `" a "` enclosed in double
quotes, one application of `cleanField` strips the quotes and returns
`" a "`, whose enclosing spaces a second application trims away — so
`cleanField` is not idempotent. -/
theorem cleanField_not_idempotent_on_quoted_spaces :
    cleanField (cleanField ['"', ' ', 'a', ' ', '"']) ≠
      cleanField ['"', ' ', 'a', ' ', '"'] := by
  decide

/-- C5 (amended): `cleanField` is idempotent on every field that contains no
double-quote character; in general idempotence fails because stripping an
enclosing quote pair can expose whitespace that only a second application
trims, see `cleanField_not_idempotent_on_quoted_spaces`. -/
theorem cleanField_idempotent_on_quote_free (f : List Char) (h : '"' ∉ f) :
    cleanField (cleanField f) = cleanField f :=
  cleanField_idem_of_no_quote f h

/-- Witness for `cleanField_idempotent_on_quote_free` at a concrete input. -/
theorem cleanField_idempotent_on_quote_free_check :
    '"' ∉ ([' ', 'a', ' '] : List Char) ∧
      cleanField (cleanField [' ', 'a', ' ']) = cleanField [' ', 'a', ' '] :=
  ⟨by decide, cleanField_idempotent_on_quote_free [' ', 'a', ' '] (by decide)⟩

/-- C6 (confirmed): `cleanField` computes exactly the spec's four-step
algorithm `specClean`; in particular it maps the empty field, a blank field,
`-` and `--` to the sentinel `0`, strips the quotes of the quoted field
`"abc"`, and maps the field of two double quotes to `0`. -/
theorem cleanField_matches_spec :
    (∀ f : List Char, cleanField f = specClean f) ∧
      cleanField [] = ['0'] ∧
      cleanField [' ', ' ', ' '] = ['0'] ∧
      cleanField ['-'] = ['0'] ∧
      cleanField ['-', '-'] = ['0'] ∧
      cleanField ['"', 'a', 'b', 'c', '"'] = ['a', 'b', 'c'] ∧
      cleanField ['"', '"'] = ['0'] :=
  ⟨cleanField_eq_specClean, by decide, by decide, by decide, by decide, by decide,
    by decide⟩

/-- Witness for `cleanField_matches_spec` at a concrete input. -/
theorem cleanField_matches_spec_check :
    cleanField ['x', ' '] = specClean ['x', ' '] :=
  cleanField_matches_spec.1 ['x', ' ']

/-- C7 (confirmed): for a non-empty field sequence `writeCSVLine` emits
exactly the fields joined with `','` followed by a single `'\n'`; for the
empty sequence it emits nothing at all. -/
theorem writeCSVLine_join_contract :
    writeCSVLine [] = [] ∧
      ∀ (f0 : List Char) (rest : List (List Char)),
        writeCSVLine (f0 :: rest) = List.intercalate [','] (f0 :: rest) ++ ['\n'] := by
  refine ⟨rfl, ?_⟩
  intro f0 rest
  simp only [writeCSVLine]
  rw [foldl_comma rest f0, intercalate_comma rest f0]

/-- Witness for `writeCSVLine_join_contract` at a concrete input. -/
theorem writeCSVLine_join_contract_check :
    writeCSVLine [['a'], ['b', 'c']] =
      List.intercalate [','] [['a'], ['b', 'c']] ++ ['\n'] :=
  writeCSVLine_join_contract.2 ['a'] [['b', 'c']]

/-- C8 (confirmed): `processFile` fails exactly when the input cannot be
opened or the output cannot be created; once both are open it succeeds and
writes the streamed transformation of the contents; and on input-open
failure it returns before the output stream is ever constructed, so the
output file is not created. -/
theorem processFile_error_contract (io oc : Bool) (c : List Char) :
    ((processFile io oc c).success = false ↔ (io = false ∨ oc = false)) ∧
      (io = true → oc = true → (processFile io oc c).success = true ∧
        (processFile io oc c).written = some (streamProcess c)) ∧
      (io = false → (processFile io oc c).outputAttempted = false) := by
  cases io <;> cases oc <;> simp [processFile]

/-- Witness for `processFile_error_contract` at concrete open outcomes. -/
theorem processFile_error_contract_check :
    (processFile false true ['a']).success = false ∧
      (processFile false true ['a']).outputAttempted = false ∧
      (processFile true true ['a']).success = true :=
  ⟨(processFile_error_contract false true ['a']).1.mpr (Or.inl rfl),
    (processFile_error_contract false true ['a']).2.2 rfl,
    ((processFile_error_contract true true ['a']).2.1 rfl rfl).1⟩

/-- C9 (confirmed): a truncated final line is processed by both engines as a
complete line: appending the missing final newline never changes either
engine's output, and a newline-free final line is parsed, cleaned and
written exactly like any terminated line (the mapped path first strips one
trailing carriage return, exactly as it does for a terminated line). -/
theorem truncated_final_line_complete :
    (∀ w : List Char, streamProcess (w ++ ['\n']) = streamProcess w) ∧
      (∀ w : List Char, mappedProcess (w ++ ['\n']) = mappedProcess w) ∧
      ∀ t : List Char, t ≠ [] → '\n' ∉ t →
        streamProcess t = writeCSVLine (parseCSVLine t) ∧
          mappedProcess t = writeCSVLine (parseCSVLine (stripCR t)) := by
  refine ⟨fun w => streamProcess_append_nl_bounded w.length w le_rfl,
    fun w => mappedProcess_append_nl_bounded w.length w le_rfl, ?_⟩
  intro t ht hnl
  constructor
  · exact streamProcess_of_not_mem t ht hnl
  · rw [mappedProcess_of_not_mem t hnl, if_neg ht]
    rfl

/-- Witness for `truncated_final_line_complete` at a concrete input. -/
theorem truncated_final_line_complete_check :
    streamProcess (['a', ',', 'b'] ++ ['\n']) = streamProcess ['a', ',', 'b'] ∧
      streamProcess ['a', ',', 'b'] = writeCSVLine (parseCSVLine ['a', ',', 'b']) :=
  ⟨truncated_final_line_complete.1 ['a', ',', 'b'],
    (truncated_final_line_complete.2.2 ['a', ',', 'b'] (by decide) (by decide)).1⟩

/-- C10 (confirmed): `cleanField` never returns the empty string — every
degenerate value is replaced by the sentinel `"0"`, and the non-sentinel
branch has explicitly checked its value to be non-empty — so no field
written to an output record is empty. -/
theorem cleanField_ne_nil (s : List Char) : cleanField s ≠ [] := by
  simp only [cleanField]
  set u := if 2 ≤ (trim s).length ∧ (trim s).head? = some '"' ∧
      (trim s).getLast? = some '"' then ((trim s).drop 1).dropLast else trim s with hu
  by_cases hs : u = ['-'] ∨ u = ['-', '-'] ∨ u = [] ∨ u.all isspace = true
  · rw [if_pos hs]
    simp
  · rw [if_neg hs]
    intro he
    exact hs (Or.inr (Or.inr (Or.inl he)))

/-- Witness for `cleanField_ne_nil` at a concrete input. -/
theorem cleanField_ne_nil_check : cleanField [] ≠ [] :=
  cleanField_ne_nil []

end Weather
